import Mathlib

/-!
# Verification of `sparseNMF.py`

A shallow embedding, over the real numbers, of the sparse NMF implementation in
`sparseNMF.py` (block coordinate descent for sparse NMF, Potluru et al., ICLR 2013),
together with proofs and refutations of the specified properties.

Conventions of the embedding:
* numpy float arrays become functions into `ℝ` (`ℕ → ℝ` for 1-D vectors indexed by
  position, `Matrix (Fin m) (Fin n) ℝ` for 2-D arrays);
* `raise` / `assert` failures become `Option`/`Except` `none`/`error` results;
* numpy's global random generator is modelled by a deterministic pseudo-random
  stream that is a function of the seed (the source calls `np.random.seed(seed)`,
  which overwrites the ambient generator state);
* python integer arithmetic on indices is carried out in `ℤ` and converted to `ℕ`
  only after the final clamping, exactly where the source indexes an array.
-/

namespace SparseNMF

open Finset

noncomputable section

/-! ## The sparsity projection `sparse_opt` (source lines 113-148)

`sparse_opt(b, k)` receives a vector `b` (sorted in decreasing order by its callers)
and the target `l1/l2` ratio `k`.  Its intermediate quantities are embedded one by
one: `sumb` and `normb` are the prefix sums `np.cumsum(b)` and `np.cumsum(b*b)` at
position `p`, `yval` is `y[p]`, `botNat` is `bot = int(np.ceil(k*k))`, `objval` is
`obj[p]`, `npArgmaxAux` is the scan performed by `np.argmax` (first index of the
maximum), `pInt`/`pSel` is the truncation index `p` after the `min`/`max` clamps,
`lamval`/`mueval` are `lam`/`mue`, and `zval` is the returned vector `z`. -/

/-- Entry `p` of `sumb = np.cumsum(b)`: the sum of the first `p+1` entries of `b`. -/
def sumb (b : ℕ → ℝ) (p : ℕ) : ℝ := ∑ j ∈ Finset.range (p + 1), b j

/-- Entry `p` of `normb = np.cumsum(b * b)`: the sum of squares of the first `p+1`
entries of `b`. -/
def normb (b : ℕ → ℝ) (p : ℕ) : ℝ := ∑ j ∈ Finset.range (p + 1), b j ^ 2

/-- Entry `p` of `y = (pnormb - sumb * sumb) / (np.arange(1, m + 1) - k * k)`. -/
def yval (b : ℕ → ℝ) (k : ℝ) (p : ℕ) : ℝ :=
  ((p + 1) * normb b p - sumb b p ^ 2) / ((p + 1) - k ^ 2)

/-- `bot = int(np.ceil(k * k))` (a non-negative quantity since `k^2 ≥ 0`). -/
def botNat (k : ℝ) : ℕ := (Int.ceil (k ^ 2)).toNat

/-- Entry `p` of `obj = (-np.sqrt(y) * (np.arange(1, m + 1) + k) + sumb) / np.arange(1, m + 1)`. -/
def objval (b : ℕ → ℝ) (k : ℝ) (p : ℕ) : ℝ :=
  (-Real.sqrt (yval b k p) * ((p + 1) + k) + sumb b p) / (p + 1)

/-- The scan performed by `np.argmax` on the values `g 0, …, g j`: keep the current
best index, replacing it only when a strictly larger value appears, so the first
occurrence of the maximum wins. -/
def npArgmaxAux (g : ℕ → ℝ) : ℕ → ℕ
  | 0 => 0
  | j + 1 => if g (npArgmaxAux g j) < g (j + 1) then j + 1 else npArgmaxAux g j

/-- `indx = np.argmax(obj[bot:m])`: index *within the slice* `obj[bot:m]`
(a slice of length `m - bot`) of the first maximal entry. -/
def argmaxIdx (m : ℕ) (b : ℕ → ℝ) (k : ℝ) : ℕ :=
  npArgmaxAux (fun t => objval b k (botNat k + t)) (m - botNat k - 1)

/-- The truncation index after `p = indx + bot - 1; p = min(p, m - 1); p = max(p, bot)`,
computed in `ℤ` exactly as python computes it on `int`s. -/
def pInt (m : ℕ) (b : ℕ → ℝ) (k : ℝ) : ℤ :=
  max (min ((argmaxIdx m b k : ℤ) + (botNat k : ℤ) - 1) ((m : ℤ) - 1)) (botNat k : ℤ)

/-- The truncation index `p` as a natural number (the final clamp guarantees
`p ≥ bot ≥ 0`, so the conversion is faithful). -/
def pSel (m : ℕ) (b : ℕ → ℝ) (k : ℝ) : ℕ := (pInt m b k).toNat

/-- `lam = np.sqrt(y[p])`. -/
def lamval (m : ℕ) (b : ℕ → ℝ) (k : ℝ) : ℝ := Real.sqrt (yval b k (pSel m b k))

/-- `mue = -sumb[p] / (p + 1) + k / (p + 1) * lam`. -/
def mueval (m : ℕ) (b : ℕ → ℝ) (k : ℝ) : ℝ :=
  -sumb b (pSel m b k) / (pSel m b k + 1) + k / (pSel m b k + 1) * lamval m b k

/-- The returned vector: `z = np.zeros(m); z[:p + 1] = (b[:p + 1] + mue) / lam`. -/
def zval (m : ℕ) (b : ℕ → ℝ) (k : ℝ) (j : ℕ) : ℝ :=
  if j ≤ pSel m b k then (b j + mueval m b k) / lamval m b k else 0

/-- `sparse_opt(b, k)` for a vector of length `m`: `none` models the
`raise ValueError(...)` taken when `bot >= m`. -/
def sparse_opt (m : ℕ) (b : ℕ → ℝ) (k : ℝ) : Option (ℕ → ℝ) :=
  if m ≤ botNat k then none else some (zval m b k)

/-! ## Matrix-level components (source lines 5-110) -/

/-- A dense real matrix of fixed shape, the embedding of a 2-D numpy array. -/
abbrev Mat (m n : ℕ) : Type := Matrix (Fin m) (Fin n) ℝ

/-- `k = np.sqrt(m) - spar * (np.sqrt(m) - 1)` (source lines 68 and 104). -/
def kTarget (m : ℕ) (spar : ℝ) : ℝ := Real.sqrt m - spar * (Real.sqrt m - 1)

/-- `np.spacing(1)`, the gap between `1.0` and the next double, equals `2⁻⁵²`. -/
def npSpacingOne : ℝ := 1 / 2 ^ 52

/-- One pass of the loop body in `update_H`:
`H = H * WtX / (np.dot(WtW, H) + np.spacing(1))` (source line 95). -/
def mulStep {m n rank : ℕ} (X : Mat m n) (W : Mat m rank) (H : Mat rank n) : Mat rank n :=
  Matrix.of fun a j =>
    H a j * (W.transpose * X) a j / ((W.transpose * W * H) a j + npSpacingOne)

/-- `update_H(X, W, H)` (source lines 89-96): ten passes of the multiplicative
update with `WtX` and `WtW` fixed. -/
def update_H {m n rank : ℕ} (X : Mat m n) (W : Mat m rank) (H : Mat rank n) : Mat rank n :=
  (mulStep X W)^[10] H

/-- `W_sparse_ith(W, HHt, cach, spar, i)` (source lines 99-110).  The vector `-C`
is sorted in decreasing order using the sorting permutation `σ = Tuple.sort (-C)`
(ascending order, reversed); `a` is its projection; `ind = np.argsort(-C)[::-1]`
satisfies `ind t = σ (m - 1 - t)`, and `V[ind] = a` becomes
`V j = a (m - 1 - σ⁻¹ j)`.  The cache is then advanced by
`cach + np.outer(V - W[:, i], HHt[i, :])` and column `i` of `W` is replaced. -/
def W_sparse_ith {m rank : ℕ} (W : Mat m rank) (HHt : Mat rank rank) (cach : Mat m rank)
    (spar : ℝ) (i : Fin rank) : Option (Mat m rank × Mat m rank) :=
  let C : Fin m → ℝ := fun a => cach a i - W a i * HHt i i
  let σ : Equiv.Perm (Fin m) := Tuple.sort (fun a => -C a)
  let bs : ℕ → ℝ := fun t => if h : t < m then -C (σ ⟨m - 1 - t, by omega⟩) else 0
  match sparse_opt m bs (kTarget m spar) with
  | none => none
  | some a =>
      let V : Fin m → ℝ := fun j => a (m - 1 - (σ.symm j : ℕ))
      some (Matrix.updateColumn W i V,
        Matrix.of fun r c => cach r c + (V r - W r i) * HHt i c)

/-- The sequential column sweep `for i in range(rank): W, cach = W_sparse_ith(...)`
(source lines 84-85), processing the listed column indices in order. -/
def sweepW {m rank : ℕ} (HHt : Mat rank rank) (spar : ℝ) :
    List (Fin rank) → Mat m rank × Mat m rank → Option (Mat m rank × Mat m rank)
  | [], s => some s
  | i :: rest, s =>
      match W_sparse_ith s.1 HHt s.2 spar i with
      | none => none
      | some s' => sweepW HHt spar rest s'

/-- `update_W(X, W, H, spar)` (source lines 77-86): build `HHt = H·Hᵗ` and the
residual cache `-X·Hᵗ + W·(H·Hᵗ)`, then sweep the columns in index order. -/
def update_W {m n rank : ℕ} (X : Mat m n) (W : Mat m rank) (H : Mat rank n) (spar : ℝ) :
    Option (Mat m rank) :=
  (sweepW (H * H.transpose) spar (List.finRange rank)
    (W, -(X * H.transpose) + W * (H * H.transpose))).map Prod.fst

/-! ## Random initialization (source lines 44-74)

numpy's global Mersenne Twister is third-party code outside this repository.
Modelled from the spec ("Deterministic given the seed: seeds a random generator,
then fills W and H with uniform random values"): a linear congruential stream,
so that every draw is a deterministic function of the seed and of how many draws
precede it.  `np.random.seed(seed)` overwrites the ambient generator state, which
is why the functions below depend only on `seed`. -/

/-- One step of the modelled generator. -/
def lcg (s : ℕ) : ℕ := (1664525 * s + 1013904223) % 4294967296

/-- The `t`-th uniform draw (a value in `[0,1)`) produced from generator state `s`. -/
def randU (s t : ℕ) : ℝ := (lcg^[t + 1] s : ℕ) / 4294967296

/-- Descending sort of a tuple, the embedding of `np.sort(v)[::-1]`. -/
def descSort {m : ℕ} (v : Fin m → ℝ) : ℕ → ℝ :=
  fun t => if h : t < m then v (Tuple.sort v ⟨m - 1 - t, by omega⟩) else 0

/-- The initialization loop of `init_nmf` (source lines 69-70):
`W[:, i] = sparse_opt(np.sort(np.random.rand(m))[::-1], k)`.  Each pass draws `m`
fresh uniforms; the state before the draw for column `i` is `lcg^[i*m] s0`.  The
result is discarded by the source (see line 72), but a `ValueError` raised by
`sparse_opt` still aborts, so the loop is embedded in full. -/
def initLoop {m rank : ℕ} (k : ℝ) (s0 : ℕ) :
    List (Fin rank) → Mat m rank → Option (Mat m rank)
  | [], W => some W
  | i :: rest, W =>
      let v : Fin m → ℝ := fun j => randU (lcg^[(i : ℕ) * m] s0) j
      match sparse_opt m (descSort v) k with
      | none => none
      | some a => initLoop k s0 rest (Matrix.updateColumn W i fun r => a r)

/-- `init_nmf(X, rank, spar, seed)` (source lines 44-74): seed the generator, run
the (discarded) projected-column loop, then overwrite `W` with fresh uniforms and
draw `H` (row-major fills, continuing the stream). -/
def init_nmf (m n rank : ℕ) (spar : ℝ) (seed : ℕ) : Option (Mat m rank × Mat rank n) :=
  match initLoop (kTarget m spar) (seed % 4294967296) (List.finRange rank) (0 : Mat m rank) with
  | none => none
  | some _ =>
      some (Matrix.of fun r c =>
          randU (lcg^[rank * m] (seed % 4294967296)) ((r : ℕ) * rank + (c : ℕ)),
        Matrix.of fun a b =>
          randU (lcg^[m * rank] (lcg^[rank * m] (seed % 4294967296))) ((a : ℕ) * n + (b : ℕ)))

/-- The outer iteration `for i in range(maxiter)` (source lines 35-40).  The
objective value `Obj[i] = norm(X - W·H, 'fro')` is computed by the source for
diagnostics only and does not influence the returned factors, so it is not
threaded through the state here. -/
def nmf_loop {m n rank : ℕ} (X : Mat m n) (spar : ℝ) :
    ℕ → Mat m rank × Mat rank n → Option (Mat m rank × Mat rank n)
  | 0, WH => some WH
  | t + 1, WH =>
      match update_W X WH.1 WH.2 spar with
      | none => none
      | some W' => nmf_loop X spar t (W', update_H X W' WH.2)

/-- `sparse_nmf(X, rank, maxiter, spar, seed)` on the seeded path (`W = H = None`).
`rngState` is the state of numpy's global generator at call time; `init_nmf`
begins with `np.random.seed(seed)`, which discards it, so the result cannot
depend on it. -/
def sparse_nmf {m n : ℕ} (rngState : ℕ) (X : Mat m n) (rank maxiter : ℕ) (spar : ℝ)
    (seed : ℕ) : Option (Mat m rank × Mat rank n) :=
  match init_nmf m n rank spar seed with
  | none => none
  | some WH => nmf_loop X spar maxiter WH

/-! ## Shape-carrying front end (source lines 30-36)

`sparse_nmf` accepts caller-supplied factors `W`, `H` whose shapes python cannot
check statically.  To reason about shape errors the pre-loop phase and the first
statement of the loop body are also embedded with dynamically shaped matrices. -/

/-- A 2-D numpy array with run-time shape. -/
structure DynMat where
  rows : ℕ
  cols : ℕ
  entry : Fin rows → Fin cols → ℝ

/-- The python exceptions relevant to `sparse_nmf`. -/
inductive PyErr where
  | assertionError : PyErr
  | valueError : PyErr
  deriving DecidableEq

/-- Entry access with numpy's 2-D broadcast convention: an axis of extent 1 is
repeated (the `%` has an effect only on such an axis for in-range indices). -/
def DynMat.getEntry (A : DynMat) (i j : ℕ) : ℝ :=
  if h : 0 < A.rows ∧ 0 < A.cols then
    A.entry ⟨i % A.rows, Nat.mod_lt _ h.1⟩ ⟨j % A.cols, Nat.mod_lt _ h.2⟩
  else 0

/-- The common extent of two broadcast axes, `none` when incompatible. -/
def bcastDim (a b : ℕ) : Option ℕ :=
  if a = b then some a else if a = 1 then some b else if b = 1 then some a else none

/-- `np.dot(A, B)` for 2-D arrays: `ValueError` unless the inner extents agree. -/
def npDot (A B : DynMat) : Except PyErr DynMat :=
  if h : A.cols = B.rows then
    .ok ⟨A.rows, B.cols, fun i j => ∑ c : Fin A.cols, A.entry i c * B.entry (Fin.cast h c) j⟩
  else .error .valueError

/-- `A - B` for 2-D arrays: broadcast both axes or raise `ValueError`. -/
def npSub (A B : DynMat) : Except PyErr DynMat :=
  match bcastDim A.rows B.rows, bcastDim A.cols B.cols with
  | some r, some c =>
      .ok ⟨r, c, fun i j => A.getEntry i j - B.getEntry i j⟩
  | _, _ => .error .valueError

/-- The first statement executed inside the outer loop (source line 36):
`Obj[i] = np.linalg.norm(X - np.dot(W, H), 'fro')`. -/
def objStep (X W H : DynMat) : Except PyErr ℝ :=
  match npDot W H with
  | .error e => .error e
  | .ok P =>
      match npSub X P with
      | .error e => .error e
      | .ok D => .ok (Real.sqrt (∑ i, ∑ j, D.entry i j ^ 2))

/-- A fixed-shape matrix forgetting its static shape. -/
def toDyn {m n : ℕ} (M : Mat m n) : DynMat := ⟨m, n, M⟩

/-- Everything `sparse_nmf` executes before its outer loop begins (source lines
30-34): unpack `m, n = np.shape(X)`; if both factors are `None`, `assert` a seed
and call `init_nmf`; otherwise hand the supplied factors through untouched.
`Obj = np.zeros(maxiter)` allocates the diagnostic trace and cannot fail. -/
def sparse_nmf_preloop (X : DynMat) (rank : ℕ) (spar : ℝ) (seed : Option ℕ)
    (W H : Option DynMat) : Except PyErr (Option DynMat × Option DynMat) :=
  match W, H with
  | none, none =>
      match seed with
      | none => .error .assertionError
      | some s =>
          match init_nmf X.rows X.cols rank spar s with
          | none => .error .valueError
          | some WH => .ok (some (toDyn WH.1), some (toDyn WH.2))
  | w, h => .ok (w, h)

/-! ## Definitions following the specification's words

These are *not* translations of the source; each follows the sentence of the
spec named in its doc string, for comparison against the embedded code. -/

/-- Following claim C3's words: the truncation point is the index maximizing
`obj[p]` over the search range `p ≥ ceil(k²)` (so `bot` plus the argmax of the
slice, with no `- 1`), clamped into `[ceil(k²), m-1]` before use. -/
def specP (m : ℕ) (b : ℕ → ℝ) (k : ℝ) : ℕ :=
  (max (min ((argmaxIdx m b k : ℤ) + (botNat k : ℤ)) ((m : ℤ) - 1)) (botNat k : ℤ)).toNat

/-- Modelled from the spec (for the amended claim C6): the multiplicative update
`H ← H ⊙ (WᵗX) / (WᵗW·H)` with the ε term omitted — the "known non-increasing
map for the squared-error objective" that §8 of the spec refers to. -/
def mulStepNoEps {m n rank : ℕ} (X : Mat m n) (W : Mat m rank) (H : Mat rank n) :
    Mat rank n :=
  Matrix.of fun a j => H a j * (W.transpose * X) a j / ((W.transpose * W * H) a j)

/-- The squared-error reconstruction objective `‖X - W·H‖_F²`. -/
def errSq {m n rank : ℕ} (X : Mat m n) (W : Mat m rank) (H : Mat rank n) : ℝ :=
  ∑ i, ∑ j, (X i j - (W * H) i j) ^ 2

/-! Per-column view of the objective and of the multiplicative update, used to
prove the Lee-Seung descent property of the ε-free rule. -/

/-- The squared error of one column: `‖x - W·h‖²`. -/
def colObj {m r : ℕ} (W : Mat m r) (x : Fin m → ℝ) (h : Fin r → ℝ) : ℝ :=
  ∑ i, (x i - ∑ a, W i a * h a) ^ 2

/-- Entry `(a, b)` of the Gram matrix `Wᵗ·W`. -/
def gramv {m r : ℕ} (W : Mat m r) (a b : Fin r) : ℝ := ∑ i, W i a * W i b

/-- Entry `a` of `Wᵗ·W·h`, the update's denominator for one column. -/
def colDen {m r : ℕ} (W : Mat m r) (h : Fin r → ℝ) (a : Fin r) : ℝ :=
  ∑ b, gramv W a b * h b

/-- Entry `a` of `Wᵗ·x`, the update's numerator for one column. -/
def colWtx {m r : ℕ} (W : Mat m r) (x : Fin m → ℝ) (a : Fin r) : ℝ := ∑ i, W i a * x i

/-- The ε-free multiplicative update of one column. -/
def colUpdate {m r : ℕ} (W : Mat m r) (x : Fin m → ℝ) (h : Fin r → ℝ) : Fin r → ℝ :=
  fun a => h a * colWtx W x a / colDen W h a

/-- The `l1` norm of the first `m` entries of a vector. -/
def l1norm (m : ℕ) (z : ℕ → ℝ) : ℝ := ∑ j ∈ Finset.range m, |z j|

/-- The `l2` norm of the first `m` entries of a vector. -/
def l2norm (m : ℕ) (z : ℕ → ℝ) : ℝ := Real.sqrt (∑ j ∈ Finset.range m, z j ^ 2)

/-! ## Concrete inputs used in the counterexamples and witnesses -/

/-- The vector `[38, 34, 11]` (extended by zeros), sorted in decreasing order. -/
def bC1 : ℕ → ℝ := fun j => if j = 0 then 38 else if j = 1 then 34 else if j = 2 then 11 else 0

/-- The vector `[29, 25, 2]` (extended by zeros), sorted in decreasing order. -/
def bC2 : ℕ → ℝ := fun j => if j = 0 then 29 else if j = 1 then 25 else if j = 2 then 2 else 0

/-- The vector `[20, 11, 8, 7]` (extended by zeros), sorted in decreasing order. -/
def bC3 : ℕ → ℝ := fun j =>
  if j = 0 then 20 else if j = 1 then 11 else if j = 2 then 8 else if j = 3 then 7 else 0

/-- The constant vector of ones (`[1, 1, 1]` when read to length 3), which is
(weakly) sorted in decreasing order. -/
def bC10 : ℕ → ℝ := fun _ => 1

/-- The vector `[2, 1, 1]` (extended by ones), sorted in decreasing order. -/
def bC10w : ℕ → ℝ := fun j => if j = 0 then 2 else 1

/-- A `4 × 6` data matrix of ones. -/
def X8dyn : DynMat := ⟨4, 6, fun _ _ => 1⟩

/-- A supplied `W` with the wrong row count (`3` instead of `4`). -/
def W8dyn : DynMat := ⟨3, 2, fun _ _ => 1⟩

/-- A supplied `H` of the matching shape `2 × 6`. -/
def H8dyn : DynMat := ⟨2, 6, fun _ _ => 1⟩

/-- The `1 × 1` matrix with entry `1`: an exactly factorized instance `X = W·H`. -/
def one11 : Mat 1 1 := Matrix.of fun _ _ => 1

/-- The `1 × 1` matrix with entry `3`. -/
def X6w : Mat 1 1 := Matrix.of fun _ _ => 3

/-- The `1 × 1` matrix with entry `2`. -/
def H6w : Mat 1 1 := Matrix.of fun _ _ => 2

end

/-! # Theorems -/

noncomputable section

/-! ## Shared evaluation helpers -/

theorem botNat_seven_fifths : botNat (7/5) = 2 := by
  unfold botNat
  rw [show (⌈((7:ℝ)/5)^2⌉ : ℤ) = 2 by rw [Int.ceil_eq_iff]; norm_num]
  decide

theorem botNat_six_fifths : botNat (6/5) = 2 := by
  unfold botNat
  rw [show (⌈((6:ℝ)/5)^2⌉ : ℤ) = 2 by rw [Int.ceil_eq_iff]; norm_num]
  decide

/-! ## Claim C1: evaluation of the projection at `b = [38, 34, 11]`, `k = 7/5`

`ceil(k²) = 2 < 3 = m`, and the search slice `obj[2:3]` has length one, so the
selected truncation index is `p = 2` after the clamps.  All intermediate
quantities are rational here (`y[2] = 1225` is a perfect square), so the code's
output can be computed exactly: `z = [16/21, 68/105, -1/105]`. -/

theorem pSel_C1 : pSel 3 bC1 (7/5) = 2 := by
  unfold pSel pInt argmaxIdx
  rw [botNat_seven_fifths]
  norm_num [npArgmaxAux]
  decide

theorem yval_C1 : yval bC1 (7/5) 2 = 1225 := by
  unfold yval normb sumb
  simp [Finset.sum_range_succ, bC1]
  norm_num

theorem lamval_C1 : lamval 3 bC1 (7/5) = 35 := by
  unfold lamval
  rw [pSel_C1, yval_C1]
  rw [show (1225:ℝ) = 35^2 by norm_num, Real.sqrt_sq (by norm_num : (0:ℝ) ≤ 35)]

theorem mueval_C1 : mueval 3 bC1 (7/5) = -34/3 := by
  unfold mueval sumb
  rw [pSel_C1, lamval_C1]
  simp [Finset.sum_range_succ, bC1]
  norm_num

theorem zval_C1_zero : zval 3 bC1 (7/5) 0 = 16/21 := by
  unfold zval
  rw [pSel_C1, mueval_C1, lamval_C1]
  norm_num [bC1]

theorem zval_C1_one : zval 3 bC1 (7/5) 1 = 68/105 := by
  unfold zval
  rw [pSel_C1, mueval_C1, lamval_C1]
  norm_num [bC1]

theorem zval_C1_two : zval 3 bC1 (7/5) 2 = -1/105 := by
  unfold zval
  rw [pSel_C1, mueval_C1, lamval_C1]
  norm_num [bC1]

theorem l1_C1 : l1norm 3 (zval 3 bC1 (7/5)) = 149/105 := by
  unfold l1norm
  rw [Finset.sum_range_succ, Finset.sum_range_succ, Finset.sum_range_one]
  rw [zval_C1_zero, zval_C1_one, zval_C1_two]
  rw [abs_of_nonneg (by norm_num : (0:ℝ) ≤ 16/21), abs_of_nonneg (by norm_num : (0:ℝ) ≤ 68/105),
    abs_of_neg (by norm_num : (-1/105:ℝ) < 0)]
  norm_num

theorem l2_C1 : l2norm 3 (zval 3 bC1 (7/5)) = 1 := by
  unfold l2norm
  rw [Finset.sum_range_succ, Finset.sum_range_succ, Finset.sum_range_one]
  rw [zval_C1_zero, zval_C1_one, zval_C1_two]
  rw [show (16/21:ℝ)^2 + (68/105:ℝ)^2 + (-1/105:ℝ)^2 = 1 by norm_num]
  exact Real.sqrt_one

/-- Claim C1: the claim says `sparse_opt` returns a vector whose `l1/l2` ratio
equals `k` exactly.  The code violates this (and its own docstring) at the
decreasing input `b = [38, 34, 11]` with `k = 7/5` (valid: `ceil(k²) = 2 < 3`):
it returns `z = [16/21, 68/105, -1/105]`, whose ratio is `149/105 ≠ 7/5`.
(The signed sum of `z` is `7/5` and `‖z‖₂ = 1`, but the negative entry makes the
`l1` norm strictly larger than the signed sum.) -/
theorem sparse_opt_ratio_violation_at_concrete_input :
    sparse_opt 3 bC1 (7/5) = some (zval 3 bC1 (7/5)) ∧
    l1norm 3 (zval 3 bC1 (7/5)) / l2norm 3 (zval 3 bC1 (7/5)) = 149/105 ∧
    (149/105 : ℝ) ≠ 7/5 := by
  refine ⟨?_, ?_, by norm_num⟩
  · unfold sparse_opt
    rw [botNat_seven_fifths]
    norm_num
  · rw [l1_C1, l2_C1]
    norm_num

/-! ## Claim C2: evaluation of the projection at `b = [29, 25, 2]`, `k = 7/5` -/

theorem pSel_C2 : pSel 3 bC2 (7/5) = 2 := by
  unfold pSel pInt argmaxIdx
  rw [botNat_seven_fifths]
  norm_num [npArgmaxAux]
  decide

theorem yval_C2 : yval bC2 (7/5) 2 = 1225 := by
  unfold yval normb sumb
  simp [Finset.sum_range_succ, bC2]
  norm_num

theorem lamval_C2 : lamval 3 bC2 (7/5) = 35 := by
  unfold lamval
  rw [pSel_C2, yval_C2]
  rw [show (1225:ℝ) = 35^2 by norm_num, Real.sqrt_sq (by norm_num : (0:ℝ) ≤ 35)]

theorem mueval_C2 : mueval 3 bC2 (7/5) = -7/3 := by
  unfold mueval sumb
  rw [pSel_C2, lamval_C2]
  simp [Finset.sum_range_succ, bC2]
  norm_num

/-- Claim C2: the claim says every entry of the vector returned by `sparse_opt`
(and hence of `W`) is `≥ 0`.  At the decreasing input `b = [29, 25, 2]` with
`k = 7/5` (valid: `ceil(k²) = 2 < 3`), the returned vector has
`z[2] = (2 - 7/3)/35 = -1/105 < 0`. -/
theorem sparse_opt_negative_entry_at_concrete_input :
    sparse_opt 3 bC2 (7/5) = some (zval 3 bC2 (7/5)) ∧ zval 3 bC2 (7/5) 2 < 0 := by
  constructor
  · unfold sparse_opt
    rw [botNat_seven_fifths]
    norm_num
  · unfold zval
    rw [pSel_C2, mueval_C2, lamval_C2]
    norm_num [bC2]

/-! ## Claim C3: evaluation of the truncation index at `b = [20, 11, 8, 7]`, `k = 7/5`

Here `bot = 2` and the search range is `{2, 3}`.  The objective satisfies
`obj[2] = -9 < obj[3]` (since `√(y[3]) = √(3500/17) < 410/27`), so the maximizing
index is `3`; the code nevertheless uses `p = argmax + bot - 1 = 2`. -/

theorem yval_C3_two : yval bC3 (7/5) 2 = 225 := by
  unfold yval normb sumb
  simp [Finset.sum_range_succ, bC3]
  norm_num

theorem yval_C3_three : yval bC3 (7/5) 3 = 3500/17 := by
  unfold yval normb sumb
  simp [Finset.sum_range_succ, bC3]
  norm_num

theorem objval_C3_lt : objval bC3 (7/5) 2 < objval bC3 (7/5) 3 := by
  unfold objval
  rw [yval_C3_two, yval_C3_three]
  rw [show (225:ℝ) = 15^2 by norm_num, Real.sqrt_sq (by norm_num : (0:ℝ) ≤ 15)]
  have h : Real.sqrt ((3500:ℝ)/17) < 410/27 := by
    rw [Real.sqrt_lt' (by norm_num : (0:ℝ) < 410/27)]
    norm_num
  have hsum2 : sumb bC3 2 = 39 := by
    unfold sumb; simp [Finset.sum_range_succ, bC3]; norm_num
  have hsum3 : sumb bC3 3 = 46 := by
    unfold sumb; simp [Finset.sum_range_succ, bC3]; norm_num
  rw [hsum2, hsum3]
  push_cast
  nlinarith [Real.sqrt_nonneg ((3500:ℝ)/17)]

theorem argmaxIdx_C3 : argmaxIdx 4 bC3 (7/5) = 1 := by
  unfold argmaxIdx
  rw [botNat_seven_fifths]
  rw [show (4:ℕ) - 2 - 1 = 1 by norm_num]
  simp only [npArgmaxAux]
  rw [if_pos]
  exact objval_C3_lt

/-- Claim C3: the claim says the truncation point is the index maximizing
`obj[p]` over `p ≥ ceil(k²)`, clamped into `[ceil(k²), m-1]`.  At
`b = [20, 11, 8, 7]`, `k = 7/5` the clamped maximizing index (`specP`, built from
the claim's words) is `3`, but the code computes `p = indx + bot - 1 = 2`; the
third conjunct certifies that index `3` really has the strictly largest
objective in the search range `{2, 3}`. -/
theorem sparse_opt_truncation_differs_from_argmax :
    pSel 4 bC3 (7/5) = 2 ∧ specP 4 bC3 (7/5) = 3 ∧
    objval bC3 (7/5) 2 < objval bC3 (7/5) 3 := by
  refine ⟨?_, ?_, objval_C3_lt⟩
  · unfold pSel pInt
    rw [argmaxIdx_C3, botNat_seven_fifths]
    decide
  · unfold specP
    rw [argmaxIdx_C3, botNat_seven_fifths]
    decide

/-! ## Claim C10: well-posedness of `p`, `y[p]` and `lam` -/

theorem botNat_cast_eq_ceil (k : ℝ) : ((botNat k : ℤ) : ℝ) = (⌈k ^ 2⌉ : ℝ) := by
  unfold botNat
  rw [Int.toNat_of_nonneg (Int.ceil_nonneg (sq_nonneg k))]

theorem sq_le_botNat (k : ℝ) : k ^ 2 ≤ (botNat k : ℝ) := by
  have h := Int.le_ceil (k ^ 2)
  calc k ^ 2 ≤ (⌈k ^ 2⌉ : ℝ) := h
    _ = ((botNat k : ℤ) : ℝ) := (botNat_cast_eq_ceil k).symm
    _ = (botNat k : ℝ) := by push_cast; rfl

theorem pSel_lower (m : ℕ) (b : ℕ → ℝ) (k : ℝ) : botNat k ≤ pSel m b k := by
  unfold pSel
  have h : (botNat k : ℤ) ≤ pInt m b k := le_max_right _ _
  calc botNat k = ((botNat k : ℤ)).toNat := by simp
    _ ≤ (pInt m b k).toNat := Int.toNat_le_toNat h
    _ = pSel m b k := rfl

theorem pSel_upper (m : ℕ) (b : ℕ → ℝ) (k : ℝ) (hbot : botNat k < m) :
    pSel m b k ≤ m - 1 := by
  unfold pSel
  have h : pInt m b k ≤ (m : ℤ) - 1 := by
    unfold pInt
    have h1 : min ((argmaxIdx m b k : ℤ) + (botNat k : ℤ) - 1) ((m : ℤ) - 1) ≤ (m : ℤ) - 1 :=
      min_le_right _ _
    have h2 : (botNat k : ℤ) ≤ (m : ℤ) - 1 := by
      omega
    exact max_le h1 h2
  have := Int.toNat_le_toNat h
  calc (pInt m b k).toNat ≤ ((m : ℤ) - 1).toNat := this
    _ = m - 1 := by omega

theorem yval_num_nonneg (b : ℕ → ℝ) (p : ℕ) :
    0 ≤ (p + 1) * normb b p - sumb b p ^ 2 := by
  have h : (∑ j ∈ Finset.range (p + 1), b j) ^ 2 ≤
      (Finset.range (p + 1)).card * ∑ j ∈ Finset.range (p + 1), b j ^ 2 :=
    sq_sum_le_card_mul_sum_sq
  rw [Finset.card_range] at h
  unfold normb sumb
  push_cast at h ⊢
  linarith

theorem yval_den_pos (m : ℕ) (b : ℕ → ℝ) (k : ℝ) :
    0 < ((pSel m b k : ℝ) + 1) - k ^ 2 := by
  have h1 : k ^ 2 ≤ (botNat k : ℝ) := sq_le_botNat k
  have h2 : (botNat k : ℝ) ≤ (pSel m b k : ℝ) := by
    exact_mod_cast pSel_lower m b k
  linarith

/-- Claim C10 (amended): for every `b` and `k` with `ceil(k²) < m`, the selected
truncation point `p` lies in `[ceil(k²), m-1]`, `y[p] ≥ 0` (Cauchy-Schwarz
numerator, positive denominator since `p + 1 > k²`), and `lam = √(y[p]) ≥ 0` is
well defined; `lam > 0` holds under the additional hypothesis that the
Cauchy-Schwarz inequality on the selected prefix is strict (`b` not constant on
`[0..p]`) — without it `lam` can be `0` and the division degenerates. -/
theorem sparse_opt_lam_wellposed (m : ℕ) (b : ℕ → ℝ) (k : ℝ) (hbot : botNat k < m) :
    (botNat k ≤ pSel m b k ∧ pSel m b k ≤ m - 1) ∧
    0 ≤ yval b k (pSel m b k) ∧
    0 ≤ lamval m b k ∧
    (sumb b (pSel m b k) ^ 2 < (pSel m b k + 1) * normb b (pSel m b k) →
      0 < lamval m b k) := by
  have hden := yval_den_pos m b k
  refine ⟨⟨pSel_lower m b k, pSel_upper m b k hbot⟩, ?_, Real.sqrt_nonneg _, ?_⟩
  · unfold yval
    exact div_nonneg (yval_num_nonneg b (pSel m b k)) (by linarith)
  · intro hstrict
    unfold lamval
    rw [Real.sqrt_pos]
    unfold yval
    apply div_pos _ hden
    linarith

theorem pSel_C10w : pSel 3 bC10w (6/5) = 2 := by
  unfold pSel pInt argmaxIdx
  rw [botNat_six_fifths]
  norm_num [npArgmaxAux]
  decide

/-- Witness for the amended claim C10 at `b = [2, 1, 1]`, `k = 6/5`. -/
theorem sparse_opt_lam_wellposed_witness : 0 < lamval 3 bC10w (6/5) :=
  (sparse_opt_lam_wellposed 3 bC10w (6/5)
      (by rw [botNat_six_fifths]; norm_num)).2.2.2
    (by
      rw [pSel_C10w]
      unfold sumb normb
      simp [Finset.sum_range_succ, bC10w]
      norm_num)

/-! ## Claim C10, counterexample part: `lam = 0` on a constant input -/

theorem pSel_C10 : pSel 3 bC10 (6/5) = 2 := by
  unfold pSel pInt argmaxIdx
  rw [botNat_six_fifths]
  norm_num [npArgmaxAux]
  decide

/-! ## Claim C4: the residual cache invariant of the column sweep -/

theorem updateColumn_mul_apply {m rank : ℕ} (W : Mat m rank) (HHt : Mat rank rank)
    (V : Fin m → ℝ) (i : Fin rank) (r : Fin m) (c : Fin rank) :
    (Matrix.updateColumn W i V * HHt) r c = (W * HHt) r c + (V r - W r i) * HHt i c := by
  rw [Matrix.mul_apply, Matrix.mul_apply]
  have hterm : ∀ c' : Fin rank, Matrix.updateColumn W i V r c' * HHt c' c
      = W r c' * HHt c' c + (if c' = i then (V r - W r i) * HHt i c else 0) := by
    intro c'
    by_cases hc : c' = i
    · subst hc
      simp [Matrix.updateColumn_apply]
      ring
    · simp [Matrix.updateColumn_apply, hc]
  rw [Finset.sum_congr rfl fun c' _ => hterm c', Finset.sum_add_distrib,
    Finset.sum_ite_eq' Finset.univ i fun _ => (V r - W r i) * HHt i c]
  simp

/-- When `bot < m` the projection inside `W_sparse_ith` cannot fail, and the
step returns the column-replaced `W` together with the incrementally advanced
cache, for some new column value `V`. -/
theorem W_sparse_ith_eq {m rank : ℕ} (W : Mat m rank) (HHt : Mat rank rank)
    (cach : Mat m rank) (spar : ℝ) (i : Fin rank)
    (hbot : botNat (kTarget m spar) < m) :
    ∃ V : Fin m → ℝ, W_sparse_ith W HHt cach spar i =
      some (Matrix.updateColumn W i V,
        Matrix.of fun r c => cach r c + (V r - W r i) * HHt i c) := by
  unfold W_sparse_ith sparse_opt
  simp only [if_neg (not_le.mpr hbot)]
  exact ⟨_, rfl⟩

/-- The incremental step `cach + outer(V - W[:,i], HHt[i,:])` re-establishes
`cach = -X·Hᵗ + W·(H·Hᵗ)` for the column-replaced `W`. -/
theorem cache_update_consistent {m n rank : ℕ} (X : Mat m n) (H : Mat rank n)
    (W cach : Mat m rank) (V : Fin m → ℝ) (i : Fin rank)
    (hc : cach = -(X * H.transpose) + W * (H * H.transpose)) :
    (Matrix.of fun r c => cach r c + (V r - W r i) * (H * H.transpose) i c)
      = -(X * H.transpose) + Matrix.updateColumn W i V * (H * H.transpose) := by
  ext r c
  rw [Matrix.of_apply, hc]
  simp only [Matrix.add_apply, Matrix.neg_apply, updateColumn_mul_apply]
  ring

/-- Sequential sweep preservation: starting from any consistent cache, every
prefix of the column sweep succeeds and ends with a consistent cache. -/
theorem sweepW_cache_invariant {m n rank : ℕ} (X : Mat m n) (H : Mat rank n) (spar : ℝ)
    (hbot : botNat (kTarget m spar) < m) (l : List (Fin rank)) :
    ∀ W cach : Mat m rank,
      cach = -(X * H.transpose) + W * (H * H.transpose) →
      ∃ W' cach', sweepW (H * H.transpose) spar l (W, cach) = some (W', cach') ∧
        cach' = -(X * H.transpose) + W' * (H * H.transpose) := by
  induction l with
  | nil => exact fun W cach hc => ⟨W, cach, rfl, hc⟩
  | cons i rest ih =>
      intro W cach hc
      obtain ⟨V, hV⟩ := W_sparse_ith_eq W (H * H.transpose) cach spar i hbot
      obtain ⟨W', cach', hrest, hinv⟩ :=
        ih (Matrix.updateColumn W i V)
          (Matrix.of fun r c => cach r c + (V r - W r i) * (H * H.transpose) i c)
          (cache_update_consistent X H W cach V i hc)
      refine ⟨W', cach', ?_, hinv⟩
      rw [sweepW, hV]
      exact hrest

/-- Claim C4: within one call of `update_W`, the columns are processed
sequentially in index order (the sweep runs over `List.finRange rank`), and
after the first `t` column updates the cache equals `-X·Hᵗ + W·(H·Hᵗ)`
recomputed with the current (partially updated) `W` and the iteration's fixed
`H·Hᵗ`: the incremental step keeps the cache consistent at every prefix. -/
theorem update_W_cache_invariant (m n rank : ℕ) (X : Mat m n) (W : Mat m rank)
    (H : Mat rank n) (spar : ℝ) (t : ℕ)
    (hbot : botNat (kTarget m spar) < m) :
    ∃ Wt cacht,
      sweepW (H * H.transpose) spar ((List.finRange rank).take t)
        (W, -(X * H.transpose) + W * (H * H.transpose)) = some (Wt, cacht) ∧
      cacht = -(X * H.transpose) + Wt * (H * H.transpose) :=
  sweepW_cache_invariant X H spar hbot ((List.finRange rank).take t) W _ rfl

theorem sqrt_four : Real.sqrt 4 = 2 := by
  rw [show (4:ℝ) = 2^2 by norm_num, Real.sqrt_sq (by norm_num : (0:ℝ) ≤ 2)]

theorem kTarget_four_half : kTarget 4 (1/2) = 3/2 := by
  unfold kTarget
  rw [show ((4:ℕ) : ℝ) = 4 by push_cast; rfl, sqrt_four]
  norm_num

theorem botNat_three_halves : botNat (3/2) = 3 := by
  unfold botNat
  rw [show (⌈((3:ℝ)/2)^2⌉ : ℤ) = 3 by rw [Int.ceil_eq_iff]; norm_num]
  decide

/-- Witness for claim C4 at `m = 4`, `n = 2`, `rank = 2`, `spar = 1/2`
(`k = 3/2`, `bot = 3 < 4`), zero matrices, prefix length `t = 1`. -/
theorem update_W_cache_invariant_witness :
    ∃ Wt cacht,
      sweepW (((0 : Mat 2 2)) * (0 : Mat 2 2).transpose) (1/2) ((List.finRange 2).take 1)
        ((0 : Mat 4 2),
          -((0 : Mat 4 2) * (0 : Mat 2 2).transpose) +
            (0 : Mat 4 2) * ((0 : Mat 2 2) * (0 : Mat 2 2).transpose)) = some (Wt, cacht) ∧
      cacht = -((0 : Mat 4 2) * (0 : Mat 2 2).transpose) +
        Wt * ((0 : Mat 2 2) * (0 : Mat 2 2).transpose) :=
  update_W_cache_invariant 4 2 2 0 0 0 (1/2) 1
    (by rw [kTarget_four_half, botNat_three_halves]; norm_num)

/-! ## Claim C5: the projection error condition and its propagation -/

theorem initLoop_none {m rank : ℕ} (k : ℝ) (s0 : ℕ) (hm : m ≤ botNat k) :
    ∀ (l : List (Fin rank)) (W : Mat m rank), l ≠ [] → initLoop k s0 l W = none := by
  intro l W hl
  match l with
  | [] => exact absurd rfl hl
  | i :: rest =>
      unfold initLoop sparse_opt
      simp only [if_pos hm]

theorem initLoop_some {m rank : ℕ} (k : ℝ) (s0 : ℕ) (hm : botNat k < m) :
    ∀ (l : List (Fin rank)) (W : Mat m rank), ∃ W', initLoop k s0 l W = some W' := by
  intro l
  induction l with
  | nil => exact fun W => ⟨W, rfl⟩
  | cons i rest ih =>
      intro W
      unfold initLoop sparse_opt
      simp only [if_neg (not_le.mpr hm)]
      exact ih _

theorem init_nmf_none (m n rank : ℕ) (spar : ℝ) (seed : ℕ)
    (hm : m ≤ botNat (kTarget m spar)) (hrank : 1 ≤ rank) :
    init_nmf m n rank spar seed = none := by
  unfold init_nmf
  rw [initLoop_none (kTarget m spar) (seed % 4294967296) hm (List.finRange rank) 0]
  intro h
  have := congrArg List.length h
  simp [List.length_finRange] at this
  omega

theorem init_nmf_some (m n rank : ℕ) (spar : ℝ) (seed : ℕ)
    (hm : botNat (kTarget m spar) < m) :
    ∃ WH, init_nmf m n rank spar seed = some WH := by
  unfold init_nmf
  obtain ⟨W', hW'⟩ :=
    initLoop_some (kTarget m spar) (seed % 4294967296) hm (List.finRange rank) 0
  rw [hW']
  exact ⟨_, rfl⟩

theorem update_W_some {m n rank : ℕ} (X : Mat m n) (W : Mat m rank) (H : Mat rank n)
    (spar : ℝ) (hbot : botNat (kTarget m spar) < m) :
    ∃ W', update_W X W H spar = some W' := by
  unfold update_W
  obtain ⟨W', cach', hs, _⟩ :=
    sweepW_cache_invariant X H spar hbot (List.finRange rank) W
      (-(X * H.transpose) + W * (H * H.transpose)) rfl
  rw [hs]
  exact ⟨W', rfl⟩

theorem nmf_loop_some {m n rank : ℕ} (X : Mat m n) (spar : ℝ)
    (hbot : botNat (kTarget m spar) < m) :
    ∀ (t : ℕ) (WH : Mat m rank × Mat rank n), ∃ WH', nmf_loop X spar t WH = some WH' := by
  intro t
  induction t with
  | zero => exact fun WH => ⟨WH, rfl⟩
  | succ t ih =>
      intro WH
      obtain ⟨W', hW'⟩ := update_W_some X WH.1 WH.2 spar hbot
      unfold nmf_loop
      rw [hW']
      exact ih _

/-- Claim C5: `sparse_opt` signals the invalid-sparsity error exactly when
`ceil(k²) ≥ m`; on the factorization's own inputs (`k` derived from `m` and
`spar`) the error propagates uncaught to the caller of `sparse_nmf` (already
from the initializer, whenever at least one column exists), and when
`ceil(k²) < m` no error is raised anywhere in the pipeline. -/
theorem sparse_opt_error_iff_and_propagates :
    (∀ (m : ℕ) (b : ℕ → ℝ) (k : ℝ), sparse_opt m b k = none ↔ m ≤ botNat k) ∧
    (∀ (m n g : ℕ) (X : Mat m n) (rank maxiter : ℕ) (spar : ℝ) (seed : ℕ),
      m ≤ botNat (kTarget m spar) → 1 ≤ rank →
      @sparse_nmf m n g X rank maxiter spar seed = none) ∧
    (∀ (m n g : ℕ) (X : Mat m n) (rank maxiter : ℕ) (spar : ℝ) (seed : ℕ),
      botNat (kTarget m spar) < m →
      (@sparse_nmf m n g X rank maxiter spar seed).isSome = true) := by
  refine ⟨?_, ?_, ?_⟩
  · intro m b k
    unfold sparse_opt
    by_cases hm : m ≤ botNat k
    · simp [hm]
    · simp [hm]
  · intro m n g X rank maxiter spar seed hm hrank
    unfold sparse_nmf
    rw [init_nmf_none m n rank spar seed hm hrank]
  · intro m n g X rank maxiter spar seed hm
    unfold sparse_nmf
    obtain ⟨WH, hWH⟩ := init_nmf_some m n rank spar seed hm
    rw [hWH]
    obtain ⟨WH', hWH'⟩ := nmf_loop_some X spar hm maxiter WH
    show (nmf_loop X spar maxiter WH).isSome = true
    rw [hWH']
    rfl

theorem kTarget_four_quarter : kTarget 4 (1/4) = 7/4 := by
  unfold kTarget
  rw [show ((4:ℕ) : ℝ) = 4 by push_cast; rfl, sqrt_four]
  norm_num

theorem botNat_seven_quarters : botNat (7/4) = 4 := by
  unfold botNat
  rw [show (⌈((7:ℝ)/4)^2⌉ : ℤ) = 4 by rw [Int.ceil_eq_iff]; norm_num]
  decide

/-- Witness for claim C5: with `m = 4`, `spar = 1/4` (so `k = 7/4` and
`ceil(k²) = 4 ≥ 4`) the factorization returns the error; with `spar = 1/2`
(so `k = 3/2` and `ceil(k²) = 3 < 4`) it returns a result. -/
theorem sparse_opt_error_iff_and_propagates_witness :
    @sparse_nmf 4 2 0 (0 : Mat 4 2) 1 1 (1/4) 0 = none ∧
    (@sparse_nmf 4 2 0 (0 : Mat 4 2) 1 1 (1/2) 0).isSome = true := by
  constructor
  · exact sparse_opt_error_iff_and_propagates.2.1 4 2 0 0 1 1 (1/4) 0
      (by rw [kTarget_four_quarter, botNat_seven_quarters]) (by norm_num)
  · exact sparse_opt_error_iff_and_propagates.2.2 4 2 0 0 1 1 (1/2) 0
      (by rw [kTarget_four_half, botNat_three_halves]; norm_num)

/-! ## Claim C6: monotonicity of the multiplicative H-update -/

theorem sum_mul_swap {m r : ℕ} (u : Fin m → ℝ) (W : Mat m r) (d : Fin r → ℝ) :
    ∑ i, u i * ∑ a, W i a * d a = ∑ a, (∑ i, u i * W i a) * d a := by
  simp_rw [Finset.mul_sum, Finset.sum_mul]
  rw [Finset.sum_comm]
  refine Finset.sum_congr rfl fun a _ => Finset.sum_congr rfl fun i _ => by ring

theorem sq_sum_to_gram {m r : ℕ} (W : Mat m r) (d : Fin r → ℝ) :
    ∑ i, (∑ a, W i a * d a) ^ 2 = ∑ a, ∑ b, gramv W a b * d a * d b := by
  unfold gramv
  simp_rw [sq, Finset.sum_mul_sum, Finset.sum_mul]
  rw [Finset.sum_comm]
  refine Finset.sum_congr rfl fun a _ => ?_
  rw [Finset.sum_comm]
  refine Finset.sum_congr rfl fun b _ => ?_
  refine Finset.sum_congr rfl fun i _ => by ring

theorem grad_identity {m r : ℕ} (W : Mat m r) (x : Fin m → ℝ) (h : Fin r → ℝ) (a : Fin r) :
    ∑ i, (x i - ∑ b, W i b * h b) * W i a = colWtx W x a - colDen W h a := by
  unfold colWtx colDen gramv
  rw [Finset.sum_congr rfl fun i _ => (by ring :
    (x i - ∑ b, W i b * h b) * W i a = W i a * x i - W i a * ∑ b, W i b * h b)]
  rw [Finset.sum_sub_distrib]
  congr 1
  exact sum_mul_swap (fun i => W i a) W h

theorem colObj_expand {m r : ℕ} (W : Mat m r) (x : Fin m → ℝ) (h d : Fin r → ℝ) :
    colObj W x (fun a => h a + d a) =
      colObj W x h + (∑ a, 2 * (colDen W h a - colWtx W x a) * d a)
      + ∑ a, ∑ b, gramv W a b * d a * d b := by
  unfold colObj
  have hsplit : ∀ i : Fin m, (x i - ∑ a, W i a * (h a + d a)) ^ 2
      = (x i - ∑ a, W i a * h a) ^ 2
        - 2 * ((x i - ∑ a, W i a * h a) * ∑ a, W i a * d a)
        + (∑ a, W i a * d a) ^ 2 := by
    intro i
    rw [show ∑ a, W i a * (h a + d a) = (∑ a, W i a * h a) + ∑ a, W i a * d a by
      rw [← Finset.sum_add_distrib]; exact Finset.sum_congr rfl fun a _ => by ring]
    ring
  simp only [hsplit]
  have hmid : ∑ i, 2 * ((x i - ∑ a, W i a * h a) * ∑ a, W i a * d a)
      = ∑ a, 2 * (colWtx W x a - colDen W h a) * d a := by
    rw [← Finset.mul_sum, sum_mul_swap (fun i => x i - ∑ b, W i b * h b) W d,
      Finset.mul_sum]
    refine Finset.sum_congr rfl fun a _ => ?_
    rw [grad_identity W x h a]
    ring
  rw [Finset.sum_add_distrib, Finset.sum_sub_distrib, sq_sum_to_gram, hmid]
  have hneg : ∀ a : Fin r, 2 * (colDen W h a - colWtx W x a) * d a
      = -(2 * (colWtx W x a - colDen W h a) * d a) := fun a => by ring
  simp only [hneg]
  rw [Finset.sum_neg_distrib]
  ring


theorem gramv_symm {m r : ℕ} (W : Mat m r) (a b : Fin r) : gramv W a b = gramv W b a := by
  unfold gramv
  exact Finset.sum_congr rfl fun i _ => by ring

theorem gramv_nonneg {m r : ℕ} (W : Mat m r) (hW : ∀ i a, 0 ≤ W i a) (a b : Fin r) :
    0 ≤ gramv W a b :=
  Finset.sum_nonneg fun i _ => mul_nonneg (hW i a) (hW i b)

theorem quad_bound {m r : ℕ} (W : Mat m r) (hW : ∀ i a, 0 ≤ W i a) (h d : Fin r → ℝ)
    (hh : ∀ a, 0 < h a) :
    ∑ a, ∑ b, gramv W a b * d a * d b ≤ ∑ a, colDen W h a / h a * d a ^ 2 := by
  have hRHS : ∑ a, colDen W h a / h a * d a ^ 2
      = ∑ a, ∑ b, gramv W a b * h b * d a ^ 2 / h a := by
    refine Finset.sum_congr rfl fun a _ => ?_
    unfold colDen
    rw [Finset.sum_div, Finset.sum_mul]
    exact Finset.sum_congr rfl fun b _ => by ring
  have hsw : ∑ a, ∑ b, gramv W a b * h b * d a ^ 2 / h a
      = ∑ a, ∑ b, gramv W a b * h a * d b ^ 2 / h b := by
    rw [Finset.sum_comm]
    refine Finset.sum_congr rfl fun a _ => Finset.sum_congr rfl fun b _ => ?_
    rw [gramv_symm]
  have hnonneg : 0 ≤ ∑ a, ∑ b, (gramv W a b * h b * d a ^ 2 / h a
      + gramv W a b * h a * d b ^ 2 / h b - 2 * (gramv W a b * d a * d b)) := by
    refine Finset.sum_nonneg fun a _ => Finset.sum_nonneg fun b _ => ?_
    have hident : gramv W a b * h b * d a ^ 2 / h a + gramv W a b * h a * d b ^ 2 / h b
        - 2 * (gramv W a b * d a * d b)
        = gramv W a b * ((h b * d a - h a * d b) ^ 2 / (h a * h b)) := by
      have h1 : h a ≠ 0 := ne_of_gt (hh a)
      have h2 : h b ≠ 0 := ne_of_gt (hh b)
      field_simp
      ring
    rw [hident]
    exact mul_nonneg (gramv_nonneg W hW a b)
      (div_nonneg (sq_nonneg _) (le_of_lt (mul_pos (hh a) (hh b))))
  simp only [Finset.sum_add_distrib, Finset.sum_sub_distrib, ← Finset.mul_sum] at hnonneg
  rw [hRHS]
  linarith [hsw, hnonneg]

theorem colUpdate_step_identity {m r : ℕ} (W : Mat m r) (x : Fin m → ℝ) (h : Fin r → ℝ)
    (a : Fin r) (hh : 0 < h a) (hden : 0 < colDen W h a) :
    2 * (colDen W h a - colWtx W x a) * (colUpdate W x h a - h a)
      + colDen W h a / h a * (colUpdate W x h a - h a) ^ 2
    = -(h a * (2 * (colDen W h a - colWtx W x a)) ^ 2 / (4 * colDen W h a)) := by
  unfold colUpdate
  have h1 : h a ≠ 0 := ne_of_gt hh
  have h2 : colDen W h a ≠ 0 := ne_of_gt hden
  field_simp
  ring

theorem colUpdate_nonincreasing {m r : ℕ} (W : Mat m r) (x : Fin m → ℝ) (h : Fin r → ℝ)
    (hW : ∀ i a, 0 ≤ W i a) (hh : ∀ a, 0 < h a) (hden : ∀ a, 0 < colDen W h a) :
    colObj W x (colUpdate W x h) ≤ colObj W x h := by
  have hexp := colObj_expand W x h (fun a => colUpdate W x h a - h a)
  have hfun : (fun a => h a + (colUpdate W x h a - h a)) = colUpdate W x h := by
    funext a
    ring
  rw [hfun] at hexp
  rw [hexp]
  have hq := quad_bound W hW h (fun a => colUpdate W x h a - h a) hh
  have hsum : (∑ a, 2 * (colDen W h a - colWtx W x a) * (colUpdate W x h a - h a))
      + ∑ a, colDen W h a / h a * (colUpdate W x h a - h a) ^ 2
      = ∑ a, -(h a * (2 * (colDen W h a - colWtx W x a)) ^ 2 / (4 * colDen W h a)) := by
    rw [← Finset.sum_add_distrib]
    exact Finset.sum_congr rfl fun a _ => colUpdate_step_identity W x h a (hh a) (hden a)
  have hnonpos : ∑ a, -(h a * (2 * (colDen W h a - colWtx W x a)) ^ 2 / (4 * colDen W h a)) ≤ 0 := by
    refine Finset.sum_nonpos fun a _ => ?_
    refine neg_nonpos_of_nonneg (div_nonneg (mul_nonneg (le_of_lt (hh a)) (sq_nonneg _)) ?_)
    linarith [hden a]
  linarith


theorem colWtx_eq {m n rank : ℕ} (W : Mat m rank) (X : Mat m n) (a : Fin rank) (j : Fin n) :
    colWtx W (fun i => X i j) a = (W.transpose * X) a j := by
  unfold colWtx
  rw [Matrix.mul_apply]
  exact Finset.sum_congr rfl fun i _ => by rw [Matrix.transpose_apply]

theorem colDen_eq {m n rank : ℕ} (W : Mat m rank) (H : Mat rank n) (a : Fin rank) (j : Fin n) :
    colDen W (fun b => H b j) a = (W.transpose * W * H) a j := by
  unfold colDen gramv
  rw [Matrix.mul_apply]
  refine Finset.sum_congr rfl fun b _ => ?_
  rw [Matrix.mul_apply]
  simp only [Matrix.transpose_apply]

theorem mulStepNoEps_col {m n rank : ℕ} (X : Mat m n) (W : Mat m rank) (H : Mat rank n)
    (a : Fin rank) (j : Fin n) :
    mulStepNoEps X W H a j = colUpdate W (fun i => X i j) (fun b => H b j) a := by
  unfold mulStepNoEps colUpdate
  rw [Matrix.of_apply, colWtx_eq, colDen_eq]

theorem errSq_eq_sum_colObj {m n rank : ℕ} (X : Mat m n) (W : Mat m rank) (H : Mat rank n) :
    errSq X W H = ∑ j, colObj W (fun i => X i j) (fun a => H a j) := by
  unfold errSq colObj
  rw [Finset.sum_comm]
  refine Finset.sum_congr rfl fun j _ => Finset.sum_congr rfl fun i _ => ?_
  rw [Matrix.mul_apply]

/-- Claim C6 (amended): a single application of the multiplicative H-update
*with the ε term omitted* does not increase the squared-error reconstruction
objective, for fixed entrywise non-negative `W` and entrywise positive `H` with
positive denominators `WᵗW·H` (the Lee-Seung descent property the spec refers
to).  The source's actual update adds `ε = np.spacing(1)` to the denominator,
and that version can strictly increase the objective (see the counterexample at
an exactly factorized instance), so the claim as stated fails for the code. -/
theorem update_H_noEps_step_nonincreasing {m n rank : ℕ} (X : Mat m n) (W : Mat m rank)
    (H : Mat rank n) (hW : ∀ i a, 0 ≤ W i a) (hH : ∀ a j, 0 < H a j)
    (hden : ∀ a j, 0 < (W.transpose * W * H) a j) :
    errSq X W (mulStepNoEps X W H) ≤ errSq X W H := by
  rw [errSq_eq_sum_colObj, errSq_eq_sum_colObj]
  refine Finset.sum_le_sum fun j _ => ?_
  have hcol : (fun a => mulStepNoEps X W H a j)
      = colUpdate W (fun i => X i j) (fun b => H b j) := by
    funext a
    exact mulStepNoEps_col X W H a j
  rw [hcol]
  refine colUpdate_nonincreasing W (fun i => X i j) (fun b => H b j) hW (fun a => hH a j) ?_
  intro a
  rw [colDen_eq]
  exact hden a j

/-- Witness for the amended claim C6 at the `1 × 1` instance `X = 3`, `W = 1`,
`H = 2`. -/
theorem update_H_noEps_step_nonincreasing_witness :
    errSq X6w one11 (mulStepNoEps X6w one11 H6w) ≤ errSq X6w one11 H6w :=
  update_H_noEps_step_nonincreasing X6w one11 H6w
    (fun i a => by simp [one11])
    (fun a j => by simp [H6w])
    (fun a j => by
      simp [Matrix.mul_apply, Fin.sum_univ_one, one11, H6w, Matrix.transpose_apply])

/-- Claim C6 (counterexample): the code's actual update (`mulStep`, with the
`np.spacing(1)` term in the denominator) strictly increases the squared error at
the exactly factorized `1 × 1` instance `X = W = H = 1`: the error before the
step is `0`, and after it is `(1 - 1/(1 + 2⁻⁵²))² > 0`.  Ten such steps
(`update_H`) therefore also end with a strictly larger error than they began
with. -/
theorem mulStep_increases_error_at_exact_factorization :
    errSq one11 one11 one11 < errSq one11 one11 (mulStep one11 one11 one11) := by
  unfold errSq mulStep npSpacingOne one11
  simp [Matrix.mul_apply, Fin.sum_univ_one, Matrix.transpose_apply]
  norm_num

/-! ## Claim C7: determinism of the factorization -/

/-- Claim C7: two calls to `sparse_nmf` with identical `X`, `rank`, `maxiter`,
`spar` and the same seed (and no explicitly supplied factors) produce identical
`W` and `H`.  The generator is modelled as a deterministic function of the seed;
`rngState` makes the ambient global-generator state explicit, and because
`init_nmf` begins with `np.random.seed(seed)` the result does not depend on it,
so any two runs with equal arguments agree. -/
theorem sparse_nmf_deterministic (m n g₁ g₂ : ℕ) (X : Mat m n) (rank maxiter : ℕ)
    (spar : ℝ) (seed : ℕ) :
    @sparse_nmf m n g₁ X rank maxiter spar seed = @sparse_nmf m n g₂ X rank maxiter spar seed :=
  rfl

/-! ## Claim C9: initialization happens iff both factors are absent -/

/-- Claim C9: `sparse_nmf` runs `init_nmf` if and only if both `W` and `H` are
`None`.  If exactly one factor is supplied, the pre-loop phase performs no
initialization, requires no seed, raises nothing, and hands the factors through
with the missing one still `None`; with both supplied it also passes them
through; with both absent it asserts a seed (AssertionError when `None`) and
otherwise calls `init_nmf`. -/
theorem sparse_nmf_init_iff_both_none :
    (∀ X rank spar seed w,
      sparse_nmf_preloop X rank spar seed (some w) none = .ok (some w, none)) ∧
    (∀ X rank spar seed h,
      sparse_nmf_preloop X rank spar seed none (some h) = .ok (none, some h)) ∧
    (∀ X rank spar seed w h,
      sparse_nmf_preloop X rank spar seed (some w) (some h) = .ok (some w, some h)) ∧
    (∀ X rank spar,
      sparse_nmf_preloop X rank spar none none none = .error .assertionError) ∧
    (∀ X rank spar s,
      sparse_nmf_preloop X rank spar (some s) none none =
        match init_nmf X.rows X.cols rank spar s with
        | none => .error .valueError
        | some WH => .ok (some (toDyn WH.1), some (toDyn WH.2))) := by
  refine ⟨fun _ _ _ _ _ => rfl, fun _ _ _ _ _ => rfl, fun _ _ _ _ _ _ => rfl,
    fun _ _ _ => rfl, fun _ _ _ _ => rfl⟩

/-! ## Claim C8: shape validation -/

/-- Claim C8 (counterexample): the claim says shape-inconsistent supplied
factors are rejected before the outer loop starts.  With `X : 4 × 6`,
`initialW : 3 × 2` (wrong row count) and `initialH : 2 × 6`, the pre-loop phase
accepts the factors unchanged — no rejection happens. -/
theorem sparse_nmf_preloop_accepts_mismatched_shapes :
    sparse_nmf_preloop X8dyn 2 (1/2) (some 0) (some W8dyn) (some H8dyn) =
      .ok (some W8dyn, some H8dyn) :=
  rfl

/-- Claim C8 (amended): `sparse_nmf` performs no shape validation before the
loop — with caller-supplied factors the pre-loop phase always succeeds and
returns them as given, for every shape; a mismatch only surfaces inside the
first iteration, when `np.linalg.norm(X - np.dot(W, H))` is evaluated (here at
the concrete mismatched shapes: `W·H` is `3 × 6`, which cannot be broadcast
against the `4 × 6` data matrix, raising `ValueError`). -/
theorem sparse_nmf_no_preloop_shape_validation :
    (∀ X rank spar seed w h,
      sparse_nmf_preloop X rank spar seed (some w) (some h) = .ok (some w, some h)) ∧
    objStep X8dyn W8dyn H8dyn = .error .valueError := by
  refine ⟨fun _ _ _ _ _ _ => rfl, ?_⟩
  rfl

/-- Claim C10 (counterexample): the claim asserts `lam > 0` for every
decreasing `b` with `ceil(k²) < m`.  The constant vector `b = [1, 1, 1]` is
(weakly) decreasing and `ceil((6/5)²) = 2 < 3`, yet `y[p] = 0` there, so
`lam = √(y[p]) = 0` and the division producing `z` is by zero. -/
theorem lamval_eq_zero_on_constant_input :
    botNat (6/5) < 3 ∧ bC10 1 ≤ bC10 0 ∧ bC10 2 ≤ bC10 1 ∧
    lamval 3 bC10 (6/5) = 0 := by
  refine ⟨by rw [botNat_six_fifths]; norm_num, le_refl _, le_refl _, ?_⟩
  unfold lamval
  rw [pSel_C10]
  rw [show yval bC10 (6/5) 2 = 0 by
    unfold yval normb sumb; simp [Finset.sum_range_succ, bC10]; norm_num]
  exact Real.sqrt_zero

end

end SparseNMF
